import Mathlib

/-!
Verification of the Kruskal minimum/maximum spanning tree simulator
(`Arbol_Max_Min.py`).

The Python program consists of a `UnionFind` class (dictionaries `parent`
and `rank`, `find` with path compression, `union` by rank) and a function
`kruskal(aristas, tipo)` that derives the vertex set from the edge list,
sorts the edges by weight (ascending for `tipo = "min"`, descending
otherwise, with Python's stable sort), and greedily accepts every edge
whose endpoints have distinct roots, returning the pair
`(arbol, coste_total)`.

Embedding conventions:
* Vertices are an arbitrary type `V` with decidable equality (the Python
  code only requires hashable keys); the example graph uses `String`.
* Weights are embedded as `Int` (the example graph uses integer weights).
* The dictionaries `self.parent` / `self.rank` are embedded as total
  functions `V → V` / `V → Nat` together with the key list `elems`;
  Python raises `KeyError` outside the key set, so all reachable states
  are generated by operations on members of `elems` only
  (see `Alcanzable`).
* The recursive `find` is embedded with explicit fuel
  (`elems.length`); for every reachable state the parent chains are
  acyclic and strictly rank-increasing, so this fuel is always
  sufficient and the embedding agrees with the unbounded Python
  recursion (lemma `findAux_spec`).
* Python's `sorted` is a stable sort; it is embedded by the stable
  `List.insertionSort` (any two stable sorts of the same list by the
  same key coincide).
* `print_componentes` (called before the loop and after every edge)
  performs `find` on every vertex, whose path compressions are part of
  the state; this effect is embedded by `comprimirTodos`.  The printing
  itself is I/O and has no further effect.
-/

namespace ArbolMaxMin

/-- State of the `UnionFind` class: the key list of the two dictionaries
(`elementos` passed to the constructor) and the `parent` and `rank`
mappings, embedded as total functions. -/
structure UnionFind (V : Type) where
  elems : List V
  parent : V → V
  rank : V → Nat

variable {V : Type} [DecidableEq V]

/-- Constructor `__init__`: every node is its own parent, every rank is 0. -/
def UnionFind.init (elementos : List V) : UnionFind V :=
  ⟨elementos, fun x => x, fun _ => 0⟩

/-- Body of `find` (lines 24-28) with explicit fuel: if `parent[x] != x`,
recursively find the root of `parent[x]`, repoint `parent[x]` to it
(path compression) and return it. -/
def UnionFind.findAux : Nat → UnionFind V → V → UnionFind V × V
  | 0, uf, x => (uf, x)
  | fuel + 1, uf, x =>
    if uf.parent x = x then (uf, x)
    else
      let res := UnionFind.findAux fuel uf (uf.parent x)
      ({ res.1 with parent := fun y => if y = x then res.2 else res.1.parent y }, res.2)

/-- Method `find`: the fuel `elems.length` bounds the length of every
parent chain of a reachable state, so the embedding agrees with the
unbounded Python recursion. -/
def UnionFind.find (uf : UnionFind V) (x : V) : UnionFind V × V :=
  UnionFind.findAux uf.elems.length uf x

/-- Method `union` (lines 30-45): find both roots; if equal return
`false`; otherwise attach the lower-rank root below the higher-rank one
(on a tie, `parent[ry] = rx; rank[rx] += 1`) and return `true`. -/
def UnionFind.union (uf : UnionFind V) (x y : V) : UnionFind V × Bool :=
  let resx := uf.find x
  let resy := resx.1.find y
  let uf2 := resy.1
  let rx := resx.2
  let ry := resy.2
  if rx = ry then (uf2, false)
  else if uf2.rank rx < uf2.rank ry then
    ({ uf2 with parent := fun z => if z = rx then ry else uf2.parent z }, true)
  else if uf2.rank ry < uf2.rank rx then
    ({ uf2 with parent := fun z => if z = ry then rx else uf2.parent z }, true)
  else
    ({ uf2 with parent := fun z => if z = ry then rx else uf2.parent z,
                rank := fun z => if z = rx then uf2.rank rx + 1 else uf2.rank z }, true)

/-- A vertex is a root when it is its own parent. -/
def UnionFind.IsRoot (uf : UnionFind V) (x : V) : Prop := uf.parent x = x

instance (uf : UnionFind V) (x : V) : Decidable (uf.IsRoot x) := by
  unfold UnionFind.IsRoot; infer_instance

/-- Specification-level root: follow parent links (without compression)
for at most `fuel` steps. -/
def rootAux (p : V → V) : Nat → V → V
  | 0, x => x
  | fuel + 1, x => if p x = x then x else rootAux p fuel (p x)

/-- The root of `x` in a state: follow parent links with the same fuel
bound as `find`. -/
def UnionFind.root (uf : UnionFind V) (x : V) : V :=
  rootAux uf.parent uf.elems.length x

/-- Line 58 (`nodos.add`): add a vertex to the accumulated vertex list if
it is not already present (embedding of Python set insertion; the list
order is the first-insertion order). -/
def agregar (xs : List V) (x : V) : List V :=
  if x ∈ xs then xs else xs ++ [x]

/-- Lines 56-59: the set of nodes of the graph, as the duplicate-free
list of all edge endpoints. -/
def nodosDe (aristas : List (V × V × Int)) : List V :=
  aristas.foldl (fun acc e => agregar (agregar acc e.1) e.2.1) []

/-- Lines 71-74: sort the edges by weight, ascending for `tipo = "min"`
and descending otherwise.  Python's `sorted` is stable; the stable
`List.insertionSort` coincides with it. -/
def ordenar (aristas : List (V × V × Int)) (tipo : String) : List (V × V × Int) :=
  if tipo = "min" then
    aristas.insertionSort (fun a b => a.2.2 ≤ b.2.2)
  else
    aristas.insertionSort (fun a b => b.2.2 ≤ a.2.2)

instance : IsTotal (V × V × Int) (fun a b => a.2.2 ≤ b.2.2) :=
  ⟨fun a b => le_total a.2.2 b.2.2⟩

instance : IsTrans (V × V × Int) (fun a b => a.2.2 ≤ b.2.2) :=
  ⟨fun _ _ _ hab hbc => le_trans hab hbc⟩

instance : IsTotal (V × V × Int) (fun a b => b.2.2 ≤ a.2.2) :=
  ⟨fun a b => le_total b.2.2 a.2.2⟩

instance : IsTrans (V × V × Int) (fun a b => b.2.2 ≤ a.2.2) :=
  ⟨fun _ _ _ hab hbc => le_trans hbc hab⟩

/-- State effect of `print_componentes` (lines 120-130): it calls
`uf.find(n)` for every node `n`, compressing every parent chain. -/
def comprimirTodos (uf : UnionFind V) (nodos : List V) : UnionFind V :=
  nodos.foldl (fun s n => (s.find n).1) uf

/-- Body of the edge loop (lines 89-106): find the roots of the two
endpoints; if they differ, accept the edge (`uf.union`, append to
`arbol`, add the weight to `coste_total`); finally the
`print_componentes` call compresses all chains. -/
def paso (nodos : List V) (acc : UnionFind V × List (V × V × Int) × Int)
    (e : V × V × Int) : UnionFind V × List (V × V × Int) × Int :=
  let resu := acc.1.find e.1
  let resv := resu.1.find e.2.1
  if resu.2 ≠ resv.2 then
    (comprimirTodos (resv.1.union e.1 e.2.1).1 nodos, acc.2.1 ++ [e], acc.2.2 + e.2.2)
  else
    (comprimirTodos resv.1 nodos, acc.2.1, acc.2.2)

/-- Lines 80-118 given the already-sorted edge list: initialise the
Union-Find over the nodes, run the edge loop, and return the accepted
edges together with the total cost. -/
def kruskalSobre (nodos : List V) (lista : List (V × V × Int)) :
    List (V × V × Int) × Int :=
  let uf0 := comprimirTodos (UnionFind.init nodos) nodos
  let fin := lista.foldl (paso nodos) (uf0, [], 0)
  (fin.2.1, fin.2.2)

/-- Function `kruskal(aristas, tipo)` (lines 50-118): derive the nodes,
sort the edges, and run the greedy loop.  Returns `(arbol, coste_total)`. -/
def kruskal (aristas : List (V × V × Int)) (tipo : String) :
    List (V × V × Int) × Int :=
  kruskalSobre (nodosDe aristas) (ordenar aristas tipo)

/-- Function `grafo_ejemplo` (lines 174-187). -/
def grafo_ejemplo : List (String × String × Int) :=
  [("A", "B", 4),
   ("A", "C", 2),
   ("B", "C", 5),
   ("B", "D", 10),
   ("C", "D", 3),
   ("C", "E", 4),
   ("D", "E", 11),
   ("D", "F", 2),
   ("E", "F", 1)]

/-- Two vertices are adjacent in an edge list when some edge joins them
(in either orientation). -/
def adyacente (aristas : List (V × V × Int)) (a b : V) : Prop :=
  ∃ w, (a, b, w) ∈ aristas ∨ (b, a, w) ∈ aristas

/-- Graph reachability: the reflexive-transitive closure of adjacency. -/
def ReachG (aristas : List (V × V × Int)) : V → V → Prop :=
  Relation.ReflTransGen (adyacente aristas)

/-- The input graph is connected: every two of its vertices are joined
by a path. -/
def Conexo (aristas : List (V × V × Int)) : Prop :=
  ∀ a ∈ nodosDe aristas, ∀ b ∈ nodosDe aristas, ReachG aristas a b

/-- States of the `UnionFind` class reachable from a freshly constructed
instance by method calls.  `find` and `union` index the dictionaries
with their arguments, so (to avoid `KeyError`) only members of the
initialising set may be passed. -/
inductive Alcanzable : UnionFind V → Prop where
  | inicial (elementos : List V) : Alcanzable (UnionFind.init elementos)
  | buscar {uf : UnionFind V} (x : V) : x ∈ uf.elems → Alcanzable uf →
      Alcanzable (uf.find x).1
  | unir {uf : UnionFind V} (x y : V) : x ∈ uf.elems → y ∈ uf.elems →
      Alcanzable uf → Alcanzable (uf.union x y).1

/-- Structural invariant of reachable states: every non-root vertex and
its parent are stored keys, and rank strictly increases along parent
links.  Consequently parent chains are acyclic and shorter than
`elems.length`. -/
structure Inv (uf : UnionFind V) : Prop where
  mem : ∀ x, uf.parent x ≠ x → x ∈ uf.elems ∧ uf.parent x ∈ uf.elems
  rank_lt : ∀ x, uf.parent x ≠ x → uf.rank x < uf.rank (uf.parent x)

/-- Termination measure for parent chains: the number of stored vertices
of strictly larger rank. -/
def medida (uf : UnionFind V) (x : V) : Nat :=
  (uf.elems.toFinset.filter (fun y => uf.rank x < uf.rank y)).card

/-- Number of components of a state: the number of distinct roots of
stored vertices. -/
def comps (uf : UnionFind V) : Nat :=
  (uf.elems.toFinset.image uf.root).card

/-- Parent chain relation of a state: one step goes from a vertex to its
parent. -/
def Cadena (uf : UnionFind V) : V → V → Prop :=
  Relation.ReflTransGen (fun s t => t = uf.parent s)

/-- Concrete reachable state over the elements A,B,C,D obtained by
`union(C,D)`, `union(A,B)`, `union(B,D)`: its parent mapping is
B ↦ A, C ↦ A, D ↦ C, so vertex D sits at the end of a two-step chain. -/
def ufEjemplo : UnionFind String :=
  ((((UnionFind.init ["A", "B", "C", "D"]).union "C" "D").1.union
      "A" "B").1.union "B" "D").1

/-- Heap of Python list objects: a mapping from addresses to list values
together with the next fresh address.  Used to state frame properties of
`kruskal` about the caller's list object. -/
structure Almacen (V : Type) where
  datos : Nat → List (V × V × Int)
  sig : Nat

/-- Read the list object stored at an address. -/
def Almacen.lee (σ : Almacen V) (a : Nat) : List (V × V × Int) :=
  σ.datos a

/-- Overwrite the list object stored at an address (in-place mutation,
as by `list.append`). -/
def Almacen.escribe (σ : Almacen V) (a : Nat) (l : List (V × V × Int)) :
    Almacen V :=
  ⟨fun b => if b = a then l else σ.datos b, σ.sig⟩

/-- Allocate a fresh list object (as `sorted(...)` and `[]` do) and
return its address. -/
def Almacen.reserva (σ : Almacen V) (l : List (V × V × Int)) :
    Almacen V × Nat :=
  (⟨fun b => if b = σ.sig then l else σ.datos b, σ.sig + 1⟩, σ.sig)

/-- Body of the edge loop in the store-passing translation: as `paso`,
but the in-place `arbol.append(...)` of line 100 is a heap write at the
`arbol` address `aT`. -/
def cuerpoAlmacen (nodos : List V) (aT : Nat)
    (st : Almacen V × UnionFind V × Int) (e : V × V × Int) :
    Almacen V × UnionFind V × Int :=
  let resu := st.2.1.find e.1
  let resv := resu.1.find e.2.1
  if resu.2 ≠ resv.2 then
    (st.1.escribe aT (st.1.lee aT ++ [e]),
     comprimirTodos (resv.1.union e.1 e.2.1).1 nodos, st.2.2 + e.2.2)
  else
    (st.1, comprimirTodos resv.1 nodos, st.2.2)

/-- Store-passing translation of `kruskal`: the caller's `aristas` list
lives at address `aAristas`; line 72/74 (`sorted`) allocates a fresh
list, line 82 (`arbol = []`) allocates a fresh list, and line 100
(`arbol.append(...)`) writes only to the `arbol` object.  Returns the
final heap, the address of `arbol` and the total cost. -/
def kruskalAlmacen (σ : Almacen V) (aAristas : Nat) (tipo : String) :
    Almacen V × Nat × Int :=
  let aristas := σ.lee aAristas
  let nodos := nodosDe aristas
  let p1 := σ.reserva (ordenar aristas tipo)
  let p2 := p1.1.reserva []
  let uf0 := comprimirTodos (UnionFind.init nodos) nodos
  let fin := (p2.1.lee p1.2).foldl (cuerpoAlmacen nodos p2.2) (p2.1, uf0, 0)
  (fin.1, p2.2, fin.2.2)

/-- Concrete one-object heap used as a witness input. -/
def almacenEjemplo : Almacen String :=
  ⟨fun b => if b = 0 then [("A", "B", 1)] else [], 1⟩

/-- Adding an element keeps a duplicate-free list duplicate-free. -/
theorem agregar_nodup {xs : List V} (h : xs.Nodup) (x : V) :
    (agregar xs x).Nodup := by
  unfold agregar
  by_cases hx : x ∈ xs
  · simpa [hx] using h
  · rw [if_neg hx]
    exact List.Nodup.append h (List.nodup_singleton x)
      (by intro a ha hb
          rw [List.mem_singleton.mp hb] at ha
          exact hx ha)

/-- Membership of the added element. -/
theorem mem_agregar_self (xs : List V) (x : V) : x ∈ agregar xs x := by
  unfold agregar
  by_cases hx : x ∈ xs <;> simp [hx]

/-- Adding an element preserves membership. -/
theorem mem_agregar_of_mem {xs : List V} {y : V} (h : y ∈ xs) (x : V) :
    y ∈ agregar xs x := by
  unfold agregar
  by_cases hx : x ∈ xs <;> simp [hx, h]

/-- The derived node list never contains duplicates (it embeds a Python
set). -/
theorem nodosDe_nodup (aristas : List (V × V × Int)) :
    (nodosDe aristas).Nodup := by
  suffices h : ∀ (l : List (V × V × Int)) (acc : List V), acc.Nodup →
      (l.foldl (fun acc e => agregar (agregar acc e.1) e.2.1) acc).Nodup by
    exact h aristas [] List.nodup_nil
  intro l
  induction l with
  | nil => exact fun acc h => h
  | cons e rest ih => exact fun acc h => ih _ (agregar_nodup (agregar_nodup h _) _)

/-- Vertices accumulated so far stay in the accumulated node list. -/
theorem foldl_agregar_mono :
    ∀ (l : List (V × V × Int)) (acc : List V) (y : V), y ∈ acc →
      y ∈ l.foldl (fun acc e => agregar (agregar acc e.1) e.2.1) acc := by
  intro l
  induction l with
  | nil => exact fun acc y h => h
  | cons e rest ih =>
    exact fun acc y h => ih _ y (mem_agregar_of_mem (mem_agregar_of_mem h _) _)

/-- Both endpoints of every edge are among the derived nodes. -/
theorem mem_nodosDe {aristas : List (V × V × Int)} {e : V × V × Int}
    (he : e ∈ aristas) :
    e.1 ∈ nodosDe aristas ∧ e.2.1 ∈ nodosDe aristas := by
  suffices h : ∀ (l : List (V × V × Int)) (acc : List V), e ∈ l →
      e.1 ∈ l.foldl (fun acc e => agregar (agregar acc e.1) e.2.1) acc ∧
      e.2.1 ∈ l.foldl (fun acc e => agregar (agregar acc e.1) e.2.1) acc by
    exact h aristas [] he
  intro l
  induction l with
  | nil => intro acc h; simp at h
  | cons f rest ih =>
    intro acc h
    rcases List.mem_cons.mp h with h | h
    · subst h
      constructor
      · exact foldl_agregar_mono rest _ _
          (mem_agregar_of_mem (mem_agregar_self acc e.1) e.2.1)
      · exact foldl_agregar_mono rest _ _ (mem_agregar_self _ e.2.1)
    · exact ih _ h

/-- The sorted list is a permutation of the input (Python's `sorted`
builds a reordering of the same elements). -/
theorem ordenar_perm (aristas : List (V × V × Int)) (tipo : String) :
    (ordenar aristas tipo).Perm aristas := by
  by_cases h : tipo = "min" <;>
    simp [ordenar, h, List.perm_insertionSort]

/-- Adjacency is symmetric. -/
theorem adyacente_symm {aristas : List (V × V × Int)} {a b : V}
    (h : adyacente aristas a b) : adyacente aristas b a := by
  obtain ⟨w, h⟩ := h
  exact ⟨w, h.symm⟩

/-- Graph reachability is symmetric. -/
theorem reachg_symm {aristas : List (V × V × Int)} {a b : V}
    (h : ReachG aristas a b) : ReachG aristas b a :=
  Relation.ReflTransGen.symmetric (fun _ _ hadj => adyacente_symm hadj) h

/-- Reachability is monotone under appending an edge. -/
theorem reachg_mono {l : List (V × V × Int)} (e : V × V × Int) {a b : V}
    (h : ReachG l a b) : ReachG (l ++ [e]) a b := by
  refine Relation.ReflTransGen.mono ?_ h
  rintro s t ⟨w, hw | hw⟩
  · exact ⟨w, Or.inl (List.mem_append_left _ hw)⟩
  · exact ⟨w, Or.inr (List.mem_append_left _ hw)⟩

/-- Adjacency in a list extended by one edge. -/
theorem adyacente_append {l : List (V × V × Int)} {e : V × V × Int} {a b : V} :
    adyacente (l ++ [e]) a b ↔
      adyacente l a b ∨ (a = e.1 ∧ b = e.2.1) ∨ (a = e.2.1 ∧ b = e.1) := by
  constructor
  · rintro ⟨w, hw | hw⟩
    · rcases List.mem_append.mp hw with h | h
      · exact Or.inl ⟨w, Or.inl h⟩
      · have h2 := List.mem_singleton.mp h
        simp only [Prod.ext_iff] at h2
        exact Or.inr (Or.inl ⟨h2.1, h2.2.1⟩)
    · rcases List.mem_append.mp hw with h | h
      · exact Or.inl ⟨w, Or.inr h⟩
      · have h2 := List.mem_singleton.mp h
        simp only [Prod.ext_iff] at h2
        exact Or.inr (Or.inr ⟨h2.2.1, h2.1⟩)
  · rintro (⟨w, hw | hw⟩ | ⟨ha, hb⟩ | ⟨ha, hb⟩)
    · exact ⟨w, Or.inl (List.mem_append_left _ hw)⟩
    · exact ⟨w, Or.inr (List.mem_append_left _ hw)⟩
    · subst ha
      subst hb
      exact ⟨e.2.2, Or.inl (List.mem_append_right _ (by simp))⟩
    · subst ha
      subst hb
      exact ⟨e.2.2, Or.inr (List.mem_append_right _ (by simp))⟩

/-- Reachability over the empty edge list is equality. -/
theorem reachg_nil {a b : V} (h : ReachG ([] : List (V × V × Int)) a b) :
    a = b := by
  induction h with
  | refl => rfl
  | tail _ hbc ih =>
    obtain ⟨w, hw | hw⟩ := hbc <;> simp at hw

/-- If every adjacent pair has equal roots, so does every reachable pair. -/
theorem reach_mismo_root {uf : UnionFind V} {l : List (V × V × Int)}
    (h : ∀ a b, adyacente l a b → uf.root a = uf.root b) :
    ∀ {a b}, ReachG l a b → uf.root a = uf.root b := by
  intro a b hr
  induction hr with
  | refl => rfl
  | tail _ hbc ih => exact ih.trans (h _ _ hbc)

/-- Adjacency only depends on the edges as a multiset. -/
theorem adyacente_perm {l l' : List (V × V × Int)} (hp : l.Perm l') {a b : V} :
    adyacente l a b ↔ adyacente l' a b := by
  constructor <;> rintro ⟨w, h | h⟩
  · exact ⟨w, Or.inl (hp.mem_iff.mp h)⟩
  · exact ⟨w, Or.inr (hp.mem_iff.mp h)⟩
  · exact ⟨w, Or.inl (hp.mem_iff.mpr h)⟩
  · exact ⟨w, Or.inr (hp.mem_iff.mpr h)⟩

/-- Reachability only depends on the edges as a multiset. -/
theorem reachg_perm {l l' : List (V × V × Int)} (hp : l.Perm l') {a b : V} :
    ReachG l a b ↔ ReachG l' a b := by
  constructor <;> intro h
  · exact Relation.ReflTransGen.mono (fun s t ht => (adyacente_perm hp).mp ht) h
  · exact Relation.ReflTransGen.mono (fun s t ht => (adyacente_perm hp).mpr ht) h

/-- Graph reachability never leaves a set that is closed under adjacency. -/
theorem reach_cerrado {aristas : List (V × V × Int)} {S : V → Prop}
    (h : ∀ a b, adyacente aristas a b → S a → S b) :
    ∀ a b, ReachG aristas a b → S a → S b := by
  intro a b hr
  induction hr with
  | refl => exact fun hs => hs
  | tail _ hadj ih => exact fun hs => h _ _ hadj (ih hs)

/-- The one-vertex graph with a self-loop is connected. -/
theorem conexo_lazo : Conexo [("X", "X", (5 : Int))] := by
  intro a ha b hb
  have ha' : a = "X" := by
    simpa [nodosDe, agregar] using ha
  have hb' : b = "X" := by
    simpa [nodosDe, agregar] using hb
  subst ha'; subst hb'
  exact Relation.ReflTransGen.refl

/-- The graph of two disjoint self-loops is not connected. -/
theorem no_conexo_lazos : ¬ Conexo [("X", "X", (5 : Int)), ("Y", "Y", 5)] := by
  intro h
  have hx : "X" ∈ nodosDe [("X", "X", (5 : Int)), ("Y", "Y", 5)] := by
    simp [nodosDe, agregar]
  have hy : "Y" ∈ nodosDe [("X", "X", (5 : Int)), ("Y", "Y", 5)] := by
    simp [nodosDe, agregar]
  have hreach := h "X" hx "Y" hy
  have hclosed : ∀ a b, adyacente [("X", "X", (5 : Int)), ("Y", "Y", 5)] a b →
      a = "X" → b = "X" := by
    rintro a b ⟨w, hw | hw⟩ rfl <;> simp_all [adyacente, Prod.ext_iff]
  have := reach_cerrado hclosed "X" "Y" hreach rfl
  simp at this

/-- The two-edge graph `(A,B,1), (C,D,2)` is not connected. -/
theorem no_conexo_dos : ¬ Conexo [("A", "B", (1 : Int)), ("C", "D", 2)] := by
  intro h
  have ha : "A" ∈ nodosDe [("A", "B", (1 : Int)), ("C", "D", 2)] := by
    simp [nodosDe, agregar]
  have hc : "C" ∈ nodosDe [("A", "B", (1 : Int)), ("C", "D", 2)] := by
    simp [nodosDe, agregar]
  have hreach := h "A" ha "C" hc
  have hclosed : ∀ a b, adyacente [("A", "B", (1 : Int)), ("C", "D", 2)] a b →
      (a = "A" ∨ a = "B") → (b = "A" ∨ b = "B") := by
    rintro a b ⟨w, hw | hw⟩ hab <;>
      rcases hab with rfl | rfl <;> simp_all [adyacente, Prod.ext_iff]
  have := reach_cerrado hclosed "A" "C" hreach (Or.inl rfl)
  simp at this

/-- Following a parent link strictly decreases the chain measure. -/
theorem medida_desc {uf : UnionFind V} (inv : Inv uf) {x : V}
    (hx : uf.parent x ≠ x) : medida uf (uf.parent x) < medida uf x := by
  apply Finset.card_lt_card
  rw [Finset.ssubset_iff_of_subset]
  · refine ⟨uf.parent x, ?_, ?_⟩
    · simp only [Finset.mem_filter, List.mem_toFinset]
      exact ⟨(inv.mem x hx).2, inv.rank_lt x hx⟩
    · simp
  · intro y hy
    simp only [Finset.mem_filter] at hy ⊢
    exact ⟨hy.1, lt_trans (inv.rank_lt x hx) hy.2⟩

/-- The chain measure of a stored vertex is smaller than the fuel used by
`find` and `root`. -/
theorem medida_lt {uf : UnionFind V} {x : V} (hx : x ∈ uf.elems) :
    medida uf x < uf.elems.length := by
  have h1 : medida uf x < uf.elems.toFinset.card := by
    apply Finset.card_lt_card
    rw [Finset.ssubset_iff_of_subset (Finset.filter_subset _ _)]
    exact ⟨x, List.mem_toFinset.mpr hx, by simp⟩
  exact lt_of_lt_of_le h1 uf.elems.toFinset_card_le

/-- Every vertex either has measure below the fuel bound or is a root. -/
theorem combustible {uf : UnionFind V} (inv : Inv uf) (x : V) :
    medida uf x < uf.elems.length ∨ uf.parent x = x := by
  by_cases h : uf.parent x = x
  · exact Or.inr h
  · exact Or.inl (medida_lt (inv.mem x h).1)

/-- A root is a fixpoint of the chain-following function. -/
theorem rootAux_fix {p : V → V} {x : V} (hx : p x = x) (fuel : Nat) :
    rootAux p fuel x = x := by
  cases fuel with
  | zero => rfl
  | succ f => simp [rootAux, hx]

/-- With enough fuel the chain-following function reaches a fixpoint. -/
theorem rootAux_raiz {uf : UnionFind V} (inv : Inv uf) :
    ∀ (fuel : Nat) (x : V), (medida uf x < fuel ∨ uf.parent x = x) →
      uf.parent (rootAux uf.parent fuel x) = rootAux uf.parent fuel x := by
  intro fuel
  induction fuel with
  | zero =>
    intro x h
    rcases h with h | h
    · omega
    · simpa [rootAux] using h
  | succ f ih =>
    intro x h
    by_cases hx : uf.parent x = x
    · simpa [rootAux, hx] using hx
    · have hm : medida uf x < f + 1 := h.resolve_right hx
      have hpx : medida uf (uf.parent x) < f :=
        lt_of_lt_of_le (medida_desc inv hx) (Nat.lt_succ_iff.mp hm)
      simpa [rootAux, hx] using ih (uf.parent x) (Or.inl hpx)

/-- The chain-following function is insensitive to extra fuel once the
measure is below it. -/
theorem rootAux_fuel {uf : UnionFind V} (inv : Inv uf) :
    ∀ (f f' : Nat) (x : V), (medida uf x < f ∨ uf.parent x = x) → f ≤ f' →
      rootAux uf.parent f x = rootAux uf.parent f' x := by
  intro f
  induction f with
  | zero =>
    intro f' x h _
    rcases h with h | h
    · omega
    · rw [rootAux_fix h, rootAux_fix h]
  | succ f ih =>
    intro f' x h hle
    obtain ⟨f'', rfl⟩ : ∃ f'', f' = f'' + 1 := ⟨f' - 1, by omega⟩
    by_cases hx : uf.parent x = x
    · simp [rootAux, hx]
    · have hm : medida uf x < f + 1 := h.resolve_right hx
      have hpx : medida uf (uf.parent x) < f :=
        lt_of_lt_of_le (medida_desc inv hx) (Nat.lt_succ_iff.mp hm)
      simp only [rootAux, if_neg hx]
      exact ih f'' (uf.parent x) (Or.inl hpx) (by omega)

/-- The root of a fixpoint is itself. -/
theorem root_fix {uf : UnionFind V} {x : V} (hx : uf.parent x = x) :
    uf.root x = x :=
  rootAux_fix hx _

/-- In an invariant state, `root` always lands on a root. -/
theorem raiz_raiz {uf : UnionFind V} (inv : Inv uf) (x : V) :
    uf.IsRoot (uf.root x) :=
  rootAux_raiz inv _ x (combustible inv x)

/-- Root is invariant under taking one parent step. -/
theorem root_paso {uf : UnionFind V} (inv : Inv uf) {x : V}
    (hx : uf.parent x ≠ x) : uf.root x = uf.root (uf.parent x) := by
  have hxm : x ∈ uf.elems := (inv.mem x hx).1
  have hm : medida uf x < uf.elems.length := medida_lt hxm
  obtain ⟨k, hk⟩ : ∃ k, uf.elems.length = k + 1 := ⟨uf.elems.length - 1, by omega⟩
  have hpx : medida uf (uf.parent x) < k := by
    have := medida_desc inv hx
    omega
  show rootAux uf.parent uf.elems.length x = rootAux uf.parent uf.elems.length (uf.parent x)
  rw [hk]
  calc rootAux uf.parent (k + 1) x = rootAux uf.parent k (uf.parent x) := by
        simp [rootAux, hx]
    _ = rootAux uf.parent (k + 1) (uf.parent x) :=
        rootAux_fuel inv k (k + 1) _ (Or.inl hpx) (by omega)

/-- The root of a stored vertex is stored. -/
theorem root_mem {uf : UnionFind V} (inv : Inv uf) :
    ∀ x, x ∈ uf.elems → uf.root x ∈ uf.elems := by
  have main : ∀ (n : Nat) (x : V), medida uf x ≤ n → x ∈ uf.elems →
      uf.root x ∈ uf.elems := by
    intro n
    induction n with
    | zero =>
      intro x hm hx
      by_cases hp : uf.parent x = x
      · rwa [root_fix hp]
      · exfalso; have := medida_desc inv hp; omega
    | succ n ih =>
      intro x hm hx
      by_cases hp : uf.parent x = x
      · rwa [root_fix hp]
      · rw [root_paso inv hp]
        exact ih (uf.parent x) (by have := medida_desc inv hp; omega) (inv.mem x hp).2
  exact fun x hx => main (medida uf x) x le_rfl hx

/-- Rank never decreases towards the root. -/
theorem rank_le_root {uf : UnionFind V} (inv : Inv uf) :
    ∀ x, uf.rank x ≤ uf.rank (uf.root x) := by
  have main : ∀ (n : Nat) (x : V), medida uf x ≤ n →
      uf.rank x ≤ uf.rank (uf.root x) := by
    intro n
    induction n with
    | zero =>
      intro x hm
      by_cases hp : uf.parent x = x
      · exact le_of_eq (congrArg uf.rank (root_fix hp)).symm
      · exfalso; have := medida_desc inv hp; omega
    | succ n ih =>
      intro x hm
      by_cases hp : uf.parent x = x
      · exact le_of_eq (congrArg uf.rank (root_fix hp)).symm
      · rw [root_paso inv hp]
        exact le_trans (le_of_lt (inv.rank_lt x hp))
          (ih (uf.parent x) (by have := medida_desc inv hp; omega))
  exact fun x => main (medida uf x) x le_rfl

/-- A non-root vertex has strictly smaller rank than its root. -/
theorem rank_lt_root {uf : UnionFind V} (inv : Inv uf) {x : V}
    (hx : uf.parent x ≠ x) : uf.rank x < uf.rank (uf.root x) := by
  rw [root_paso inv hx]
  exact lt_of_lt_of_le (inv.rank_lt x hx) (rank_le_root inv (uf.parent x))

/-- Calling `findAux` on a root changes nothing and returns the root. -/
theorem findAux_stop {uf : UnionFind V} {x : V} (hx : uf.parent x = x)
    (fuel : Nat) : UnionFind.findAux fuel uf x = (uf, x) := by
  cases fuel with
  | zero => rfl
  | succ f => simp [UnionFind.findAux, hx]

/-- Full specification of `findAux`: it returns the root of its argument,
keeps `elems` and `rank`, and changes `parent` only on the compressed
path, repointing chain vertices directly to the root. -/
theorem findAux_spec {uf : UnionFind V} (inv : Inv uf) :
    ∀ (fuel : Nat) (x : V), (medida uf x < fuel ∨ uf.parent x = x) →
      (UnionFind.findAux fuel uf x).2 = uf.root x ∧
      (UnionFind.findAux fuel uf x).1.elems = uf.elems ∧
      (UnionFind.findAux fuel uf x).1.rank = uf.rank ∧
      ∀ y, (UnionFind.findAux fuel uf x).1.parent y = uf.parent y ∨
           ((UnionFind.findAux fuel uf x).1.parent y = uf.root x ∧
            uf.parent y ≠ y ∧ uf.root y = uf.root x) := by
  intro fuel
  induction fuel with
  | zero =>
    intro x h
    have hp : uf.parent x = x := by
      rcases h with h | h
      · omega
      · exact h
    exact ⟨(root_fix hp).symm, rfl, rfl, fun y => Or.inl rfl⟩
  | succ f ih =>
    intro x h
    by_cases hp : uf.parent x = x
    · rw [findAux_stop hp]
      exact ⟨(root_fix hp).symm, rfl, rfl, fun y => Or.inl rfl⟩
    · have hm : medida uf x < f + 1 := h.resolve_right hp
      have hpx : medida uf (uf.parent x) < f := by
        have := medida_desc inv hp; omega
      obtain ⟨hval, helems, hrank, hparent⟩ := ih (uf.parent x) (Or.inl hpx)
      have hroot : uf.root (uf.parent x) = uf.root x := (root_paso inv hp).symm
      simp only [UnionFind.findAux, if_neg hp]
      refine ⟨hval.trans hroot, helems, hrank, ?_⟩
      intro y
      by_cases hy : y = x
      · subst hy
        exact Or.inr ⟨by simp [hval, hroot], hp, rfl⟩
      · rcases hparent y with h1 | ⟨h1, h2, h3⟩
        · left
          simpa [hy] using h1
        · right
          refine ⟨?_, h2, h3.trans hroot⟩
          simp only [if_neg hy]
          rw [h1, hroot]

/-- The value returned by `find` is the root. -/
theorem find_val {uf : UnionFind V} (inv : Inv uf) (x : V) :
    (uf.find x).2 = uf.root x :=
  (findAux_spec inv _ x (combustible inv x)).1

/-- `find` keeps the stored key list. -/
theorem find_elems {uf : UnionFind V} (inv : Inv uf) (x : V) :
    (uf.find x).1.elems = uf.elems :=
  (findAux_spec inv _ x (combustible inv x)).2.1

/-- `find` never changes the rank mapping. -/
theorem find_rank {uf : UnionFind V} (inv : Inv uf) (x : V) :
    (uf.find x).1.rank = uf.rank :=
  (findAux_spec inv _ x (combustible inv x)).2.2.1

/-- `find` changes `parent` only on the compressed path. -/
theorem find_parent {uf : UnionFind V} (inv : Inv uf) (x y : V) :
    (uf.find x).1.parent y = uf.parent y ∨
    ((uf.find x).1.parent y = uf.root x ∧ uf.parent y ≠ y ∧
     uf.root y = uf.root x) :=
  (findAux_spec inv _ x (combustible inv x)).2.2.2 y

/-- `find` preserves the set of roots. -/
theorem find_isRoot {uf : UnionFind V} (inv : Inv uf) (x y : V) :
    (uf.find x).1.parent y = y ↔ uf.parent y = y := by
  constructor
  · intro h
    rcases find_parent inv x y with h1 | ⟨h1, h2, _⟩
    · rwa [h1] at h
    · exfalso
      have hry : uf.root x = y := by rw [← h1, h]
      have hroot : uf.parent (uf.root x) = uf.root x := raiz_raiz inv x
      rw [hry] at hroot
      exact h2 hroot
  · intro h
    rcases find_parent inv x y with h1 | ⟨_, h2, _⟩
    · rwa [h1]
    · exact absurd h h2

/-- `find` preserves the structural invariant. -/
theorem find_inv {uf : UnionFind V} (inv : Inv uf) (x : V) :
    Inv (uf.find x).1 := by
  constructor
  · intro y hy
    rw [find_elems inv x]
    rcases find_parent inv x y with h1 | ⟨h1, h2, h3⟩
    · rw [h1] at hy ⊢
      exact inv.mem y hy
    · rw [h1]
      refine ⟨(inv.mem y h2).1, ?_⟩
      rw [← h3]
      exact root_mem inv y (inv.mem y h2).1
  · intro y hy
    rw [find_rank inv x]
    rcases find_parent inv x y with h1 | ⟨h1, h2, h3⟩
    · rw [h1] at hy ⊢
      exact inv.rank_lt y hy
    · rw [h1, ← h3]
      exact rank_lt_root inv h2

/-- Two states with the same roots whose parent steps respect the old
root assignment assign the same root to every vertex. -/
theorem roots_eq {uf uf' : UnionFind V} (inv : Inv uf) (inv' : Inv uf')
    (hroots : ∀ y, uf'.parent y = y ↔ uf.parent y = y)
    (hstep : ∀ y, uf.root (uf'.parent y) = uf.root y) :
    ∀ y, uf'.root y = uf.root y := by
  have main : ∀ (n : Nat) (y : V), medida uf' y ≤ n → uf'.root y = uf.root y := by
    intro n
    induction n with
    | zero =>
      intro y hm
      by_cases hp : uf'.parent y = y
      · rw [root_fix hp, root_fix ((hroots y).mp hp)]
      · exfalso; have := medida_desc inv' hp; omega
    | succ n ih =>
      intro y hm
      by_cases hp : uf'.parent y = y
      · rw [root_fix hp, root_fix ((hroots y).mp hp)]
      · rw [root_paso inv' hp,
            ih (uf'.parent y) (by have := medida_desc inv' hp; omega), hstep y]
  exact fun y => main (medida uf' y) y le_rfl

/-- Path compression does not change the root of any vertex. -/
theorem find_root {uf : UnionFind V} (inv : Inv uf) (x : V) :
    ∀ y, (uf.find x).1.root y = uf.root y := by
  apply roots_eq inv (find_inv inv x) (find_isRoot inv x)
  intro y
  rcases find_parent inv x y with h1 | ⟨h1, _, h3⟩
  · rw [h1]
    by_cases hp : uf.parent y = y
    · rw [hp]
    · exact (root_paso inv hp).symm
  · rw [h1, root_fix (raiz_raiz inv x), h3]

/-- Roots after repointing the root `r1` to the root `r2`: the class of
`r1` is absorbed into the class of `r2` and all other classes keep their
root. -/
theorem root_link {uf uf' : UnionFind V} (inv : Inv uf) (inv' : Inv uf')
    {r1 r2 : V} (hr1 : uf.IsRoot r1) (hr2 : uf.IsRoot r2) (hne : r1 ≠ r2)
    (hp : ∀ z, uf'.parent z = if z = r1 then r2 else uf.parent z) :
    ∀ z, uf'.root z = if uf.root z = r1 then r2 else uf.root z := by
  have main : ∀ (n : Nat) (z : V), medida uf' z ≤ n →
      uf'.root z = if uf.root z = r1 then r2 else uf.root z := by
    intro n
    induction n with
    | zero =>
      intro z hm
      by_cases hpz : uf'.parent z = z
      · have hz1 : z ≠ r1 := by
          intro h
          subst h
          rw [hp z, if_pos rfl] at hpz
          exact hne hpz.symm
        have hz : uf.parent z = z := by
          have h := hp z
          rw [if_neg hz1] at h
          rw [← h]
          exact hpz
        rw [root_fix hpz, root_fix hz, if_neg hz1]
      · exfalso; have := medida_desc inv' hpz; omega
    | succ n ih =>
      intro z hm
      by_cases hpz : uf'.parent z = z
      · have hz1 : z ≠ r1 := by
          intro h
          subst h
          rw [hp z, if_pos rfl] at hpz
          exact hne hpz.symm
        have hz : uf.parent z = z := by
          have h := hp z
          rw [if_neg hz1] at h
          rw [← h]
          exact hpz
        rw [root_fix hpz, root_fix hz, if_neg hz1]
      · have hrec := ih (uf'.parent z) (by have := medida_desc inv' hpz; omega)
        rw [root_paso inv' hpz, hrec, hp z]
        by_cases hz1 : z = r1
        · subst hz1
          rw [if_pos rfl]
          simp [root_fix hr1, root_fix hr2]
        · rw [if_neg hz1]
          have hpzq : uf.parent z ≠ z := by
            intro h
            apply hpz
            rw [hp z, if_neg hz1]
            exact h
          rw [← root_paso inv hpzq]
  exact fun z => main (medida uf' z) z le_rfl

/-- Attaching a strictly lower-rank root below a higher-rank one keeps
the structural invariant. -/
theorem link_inv_lt {uf : UnionFind V} (inv : Inv uf) {rlo rhi : V}
    (hne : rlo ≠ rhi) (hlom : rlo ∈ uf.elems) (hhim : rhi ∈ uf.elems)
    (hlt : uf.rank rlo < uf.rank rhi) :
    Inv { uf with parent := fun z => if z = rlo then rhi else uf.parent z } := by
  constructor
  · intro z hz
    dsimp only at hz ⊢
    by_cases h : z = rlo
    · subst h
      exact ⟨hlom, by rw [if_pos rfl]; exact hhim⟩
    · rw [if_neg h] at hz ⊢
      exact inv.mem z hz
  · intro z hz
    dsimp only at hz ⊢
    by_cases h : z = rlo
    · subst h
      rw [if_pos rfl] at hz ⊢
      exact hlt
    · rw [if_neg h] at hz ⊢
      exact inv.rank_lt z hz

/-- Attaching the root `r2` below the equal-rank root `r1` and bumping
the rank of `r1` keeps the structural invariant. -/
theorem link_inv_eq {uf : UnionFind V} (inv : Inv uf) {r1 r2 : V}
    (hr1 : uf.IsRoot r1) (hne : r1 ≠ r2)
    (h1m : r1 ∈ uf.elems) (h2m : r2 ∈ uf.elems)
    (heq : uf.rank r2 = uf.rank r1) :
    Inv { uf with parent := fun z => if z = r2 then r1 else uf.parent z,
                  rank := fun z => if z = r1 then uf.rank r1 + 1 else uf.rank z } := by
  constructor
  · intro z hz
    dsimp only at hz ⊢
    by_cases h : z = r2
    · subst h
      exact ⟨h2m, by rw [if_pos rfl]; exact h1m⟩
    · rw [if_neg h] at hz ⊢
      exact inv.mem z hz
  · intro z hz
    dsimp only at hz ⊢
    by_cases h : z = r2
    · subst h
      rw [if_pos rfl] at hz ⊢
      rw [if_neg (Ne.symm hne), if_pos rfl]
      omega
    · rw [if_neg h] at hz ⊢
      by_cases hz1 : z = r1
      · subst hz1
        exact absurd hr1 hz
      · rw [if_neg hz1]
        by_cases hp1 : uf.parent z = r1
        · rw [hp1, if_pos rfl]
          have hlt := inv.rank_lt z hz
          rw [hp1] at hlt
          omega
        · rw [if_neg hp1]
          exact inv.rank_lt z hz

/-- After `find`, the queried vertex points directly at the returned
root (full path compression). -/
theorem find_parent_self {uf : UnionFind V} (inv : Inv uf) (x : V) :
    (uf.find x).1.parent x = (uf.find x).2 := by
  show (UnionFind.findAux uf.elems.length uf x).1.parent x =
    (UnionFind.findAux uf.elems.length uf x).2
  rcases combustible inv x with h | h
  · obtain ⟨f, hf⟩ : ∃ f, uf.elems.length = f + 1 :=
      ⟨uf.elems.length - 1, by omega⟩
    rw [hf]
    by_cases hp : uf.parent x = x
    · rw [findAux_stop hp]
      exact hp
    · simp [UnionFind.findAux, hp]
  · rw [findAux_stop h]
    exact h

/-- Computation of `find` on a vertex that already points directly at a
root: the returned value is that root and the only write re-stores the
same parent value. -/
theorem find_comprimido {uf1 : UnionFind V} {x r : V}
    (hpr : uf1.parent x = r) (hrr : uf1.parent r = r) (hxr : x ≠ r)
    (hxm : x ∈ uf1.elems) :
    uf1.find x =
      ({ uf1 with parent := fun y => if y = x then r else uf1.parent y }, r) := by
  obtain ⟨f, hf⟩ : ∃ f, uf1.elems.length = f + 1 := by
    refine ⟨uf1.elems.length - 1, ?_⟩
    have hpos : 0 < uf1.elems.length := List.length_pos.mpr (List.ne_nil_of_mem hxm)
    omega
  have hx : ¬ uf1.parent x = x := by
    rw [hpr]
    exact fun h => hxr h.symm
  show UnionFind.findAux uf1.elems.length uf1 x = _
  rw [hf]
  simp only [UnionFind.findAux, if_neg hx, hpr, findAux_stop hrr]
  rw [if_neg (fun h => hxr h.symm)]

/-- The second consecutive `find` on the same vertex returns the same
root and changes nothing (idempotence after compression). -/
theorem find_otra_vez {uf : UnionFind V} (inv : Inv uf) (x : V) :
    ((uf.find x).1.find x).2 = (uf.find x).2 ∧
    (∀ y, ((uf.find x).1.find x).1.parent y = (uf.find x).1.parent y) ∧
    (∀ y, ((uf.find x).1.find x).1.rank y = (uf.find x).1.rank y) ∧
    ((uf.find x).1.find x).1.elems = (uf.find x).1.elems := by
  have inv1 : Inv (uf.find x).1 := find_inv inv x
  have h1 : (uf.find x).1.parent x = (uf.find x).2 := find_parent_self inv x
  have hroot : uf.parent (uf.find x).2 = (uf.find x).2 := by
    rw [find_val inv x]
    exact raiz_raiz inv x
  have hroot1 : (uf.find x).1.parent (uf.find x).2 = (uf.find x).2 :=
    (find_isRoot inv x _).mpr hroot
  by_cases hxr : x = (uf.find x).2
  · have hstop : (uf.find x).1.parent x = x := by rw [h1, ← hxr]
    have key : (uf.find x).1.find x = ((uf.find x).1, x) := by
      show UnionFind.findAux (uf.find x).1.elems.length (uf.find x).1 x = _
      exact findAux_stop hstop _
    rw [key]
    exact ⟨hxr, fun y => rfl, fun y => rfl, rfl⟩
  · have hxm : x ∈ (uf.find x).1.elems := by
      refine (inv1.mem x ?_).1
      rw [h1]
      exact fun h => hxr h.symm
    have key := find_comprimido h1 hroot1 hxr hxm
    rw [key]
    refine ⟨rfl, ?_, fun y => rfl, rfl⟩
    intro y
    dsimp only
    by_cases hy : y = x
    · subst hy
      rw [if_pos rfl, h1]
    · rw [if_neg hy]

/-- Full specification of `union`: it keeps the key list and the
invariant; it returns `false` exactly when the two roots coincide (then
nothing observable changes); otherwise it merges the two root classes
into one, and bumps a rank only in the equal-rank case. -/
theorem union_spec {uf : UnionFind V} (inv : Inv uf) {x y : V}
    (hx : x ∈ uf.elems) (hy : y ∈ uf.elems) :
    (uf.union x y).1.elems = uf.elems ∧
    Inv (uf.union x y).1 ∧
    ((uf.union x y).2 = false ↔ uf.root x = uf.root y) ∧
    (uf.root x = uf.root y →
      (∀ z, (uf.union x y).1.root z = uf.root z) ∧
      (∀ z, (uf.union x y).1.rank z = uf.rank z)) ∧
    (uf.root x ≠ uf.root y →
      (∃ c, (c = uf.root x ∨ c = uf.root y) ∧
        ∀ z, (uf.union x y).1.root z =
          if uf.root z = uf.root x ∨ uf.root z = uf.root y then c
          else uf.root z) ∧
      (∀ z, (uf.union x y).1.rank z = uf.rank z ∨
        ((uf.union x y).1.rank z = uf.rank z + 1 ∧ z = uf.root x ∧
         uf.rank (uf.root x) = uf.rank (uf.root y)))) := by
  have inv1 : Inv (uf.find x).1 := find_inv inv x
  have inv2 : Inv ((uf.find x).1.find y).1 := find_inv inv1 y
  have helems2 : ((uf.find x).1.find y).1.elems = uf.elems := by
    rw [find_elems inv1 y, find_elems inv x]
  have hrank2 : ((uf.find x).1.find y).1.rank = uf.rank := by
    rw [find_rank inv1 y, find_rank inv x]
  have hroot2 : ∀ z, ((uf.find x).1.find y).1.root z = uf.root z := by
    intro z
    rw [find_root inv1 y z, find_root inv x z]
  have hrx : (uf.find x).2 = uf.root x := find_val inv x
  have hry : ((uf.find x).1.find y).2 = uf.root y := by
    rw [find_val inv1 y, find_root inv x y]
  have hrxroot : ((uf.find x).1.find y).1.parent (uf.find x).2 = (uf.find x).2 := by
    rw [find_isRoot inv1 y, find_isRoot inv x, hrx]
    exact raiz_raiz inv x
  have hryroot : ((uf.find x).1.find y).1.parent ((uf.find x).1.find y).2 =
      ((uf.find x).1.find y).2 := by
    rw [find_isRoot inv1 y, find_isRoot inv x, hry]
    exact raiz_raiz inv y
  have hrxm : (uf.find x).2 ∈ ((uf.find x).1.find y).1.elems := by
    rw [helems2, hrx]
    exact root_mem inv x hx
  have hrym : ((uf.find x).1.find y).2 ∈ ((uf.find x).1.find y).1.elems := by
    rw [helems2, hry]
    exact root_mem inv y hy
  simp only [UnionFind.union]
  by_cases hr : (uf.find x).2 = ((uf.find x).1.find y).2
  · have hxy : uf.root x = uf.root y := by rw [← hrx, ← hry, hr]
    simp only [if_pos hr]
    exact ⟨helems2, inv2, by simp [hxy],
      fun _ => ⟨hroot2, fun z => congrFun hrank2 z⟩, fun h => absurd hxy h⟩
  · have hxy : uf.root x ≠ uf.root y := by
      rw [← hrx, ← hry]
      exact hr
    simp only [if_neg hr]
    by_cases hlt : ((uf.find x).1.find y).1.rank (uf.find x).2 <
        ((uf.find x).1.find y).1.rank ((uf.find x).1.find y).2
    · simp only [if_pos hlt]
      have inv3 := link_inv_lt inv2 hr hrxm hrym hlt
      have hlink := root_link inv2 inv3 hrxroot hryroot hr (fun z => rfl)
      refine ⟨helems2, inv3, by simp [hxy], fun h => absurd h hxy,
        fun _ => ⟨⟨uf.root y, Or.inr rfl, ?_⟩, fun z => Or.inl (congrFun hrank2 z)⟩⟩
      intro z
      rw [hlink z, hroot2 z, hrx, hry]
      by_cases h1 : uf.root z = uf.root x
      · simp [h1]
      · by_cases h2 : uf.root z = uf.root y
        · simp [h1, h2]
        · simp [h1, h2]
    · by_cases hgt : ((uf.find x).1.find y).1.rank ((uf.find x).1.find y).2 <
          ((uf.find x).1.find y).1.rank (uf.find x).2
      · simp only [if_neg hlt, if_pos hgt]
        have inv3 := link_inv_lt inv2 (Ne.symm hr) hrym hrxm hgt
        have hlink := root_link inv2 inv3 hryroot hrxroot (Ne.symm hr) (fun z => rfl)
        refine ⟨helems2, inv3, by simp [hxy], fun h => absurd h hxy,
          fun _ => ⟨⟨uf.root x, Or.inl rfl, ?_⟩, fun z => Or.inl (congrFun hrank2 z)⟩⟩
        intro z
        rw [hlink z, hroot2 z, hrx, hry]
        by_cases h2 : uf.root z = uf.root y
        · simp [h2]
        · by_cases h1 : uf.root z = uf.root x
          · simp [h1, h2]
          · simp [h1, h2]
      · simp only [if_neg hlt, if_neg hgt]
        have heq : ((uf.find x).1.find y).1.rank ((uf.find x).1.find y).2 =
            ((uf.find x).1.find y).1.rank (uf.find x).2 := by omega
        have inv3 := link_inv_eq inv2 hrxroot hr hrxm hrym heq
        have hlink := root_link inv2 inv3 hryroot hrxroot (Ne.symm hr) (fun z => rfl)
        refine ⟨helems2, inv3, by simp [hxy], fun h => absurd h hxy,
          fun _ => ⟨⟨uf.root x, Or.inl rfl, ?_⟩, ?_⟩⟩
        · intro z
          rw [hlink z, hroot2 z, hrx, hry]
          by_cases h2 : uf.root z = uf.root y
          · simp [h2]
          · by_cases h1 : uf.root z = uf.root x
            · simp [h1, h2]
            · simp [h1, h2]
        · intro z
          by_cases hz : z = (uf.find x).2
          · subst hz
            right
            rw [if_pos rfl]
            refine ⟨by rw [hrank2], hrx, ?_⟩
            have heq' := heq
            rw [hrank2, hrx, hry] at heq'
            exact heq'.symm
          · rw [if_neg hz]
            exact Or.inl (congrFun hrank2 z)

/-- `union` preserves the structural invariant. -/
theorem union_inv {uf : UnionFind V} (inv : Inv uf) {x y : V}
    (hx : x ∈ uf.elems) (hy : y ∈ uf.elems) : Inv (uf.union x y).1 :=
  (union_spec inv hx hy).2.1

/-- `union` keeps the stored key list. -/
theorem union_elems {uf : UnionFind V} (inv : Inv uf) {x y : V}
    (hx : x ∈ uf.elems) (hy : y ∈ uf.elems) :
    (uf.union x y).1.elems = uf.elems :=
  (union_spec inv hx hy).1

/-- Every reachable state satisfies the structural invariant. -/
theorem alcanzable_inv {uf : UnionFind V} (h : Alcanzable uf) : Inv uf := by
  induction h with
  | inicial elementos =>
    exact ⟨fun u hu => absurd rfl hu, fun u hu => absurd rfl hu⟩
  | buscar u hu halc ih => exact find_inv ih u
  | unir u w hu hw halc ih => exact union_inv ih hu hw

/-- Every vertex is chain-connected to its root. -/
theorem cadena_root {uf : UnionFind V} (inv : Inv uf) :
    ∀ v, Cadena uf v (uf.root v) := by
  have main : ∀ (n : Nat) (v : V), medida uf v ≤ n → Cadena uf v (uf.root v) := by
    intro n
    induction n with
    | zero =>
      intro v hm
      by_cases hp : uf.parent v = v
      · rw [root_fix hp]
        exact Relation.ReflTransGen.refl
      · exfalso; have := medida_desc inv hp; omega
    | succ n ih =>
      intro v hm
      by_cases hp : uf.parent v = v
      · rw [root_fix hp]
        exact Relation.ReflTransGen.refl
      · rw [root_paso inv hp]
        exact Relation.ReflTransGen.head rfl
          (ih (uf.parent v) (by have := medida_desc inv hp; omega))
  exact fun v => main (medida uf v) v le_rfl

/-- Rank is monotone along parent chains. -/
theorem cadena_rank {uf : UnionFind V} (inv : Inv uf) {a b : V}
    (h : Cadena uf a b) : uf.rank a ≤ uf.rank b := by
  induction h with
  | refl => exact le_rfl
  | @tail s t _ hbc ih =>
    subst hbc
    refine le_trans ih ?_
    by_cases hp : uf.parent s = s
    · exact le_of_eq (congrArg uf.rank hp).symm
    · exact le_of_lt (inv.rank_lt s hp)

/-- The root is the unique root reachable along the parent chain. -/
theorem cadena_unica {uf : UnionFind V} (inv : Inv uf) {v r : V}
    (h : Cadena uf v r) (hr : uf.IsRoot r) : r = uf.root v := by
  induction h using Relation.ReflTransGen.head_induction_on with
  | refl => exact (root_fix hr).symm
  | @head s t hst _ ih =>
    subst hst
    by_cases hp : uf.parent s = s
    · rw [hp] at ih
      exact ih
    · rw [root_paso inv hp]
      exact ih

/-- Parent chains have no cycles through non-root vertices. -/
theorem cadena_aciclica {uf : UnionFind V} (inv : Inv uf) {v : V}
    (hv : uf.parent v ≠ v) : ¬ Cadena uf (uf.parent v) v := by
  intro h
  have h1 := cadena_rank inv h
  have h2 := inv.rank_lt v hv
  omega

/-- States with the same keys and the same root assignment have the same
number of components. -/
theorem comps_congr {uf uf' : UnionFind V} (he : uf'.elems = uf.elems)
    (hr : ∀ z, uf'.root z = uf.root z) : comps uf' = comps uf := by
  unfold comps
  rw [he]
  exact congrArg Finset.card (Finset.image_congr (fun z _ => hr z))

/-- A fresh state has one component per stored vertex. -/
theorem comps_init (l : List V) :
    comps (UnionFind.init l) = l.toFinset.card := by
  unfold comps
  have h : Finset.image (UnionFind.init l).root (UnionFind.init l).elems.toFinset =
      l.toFinset := by
    ext b
    simp only [Finset.mem_image]
    constructor
    · rintro ⟨z, hz, rfl⟩
      rw [root_fix rfl]
      exact hz
    · intro hb
      exact ⟨b, hb, root_fix rfl⟩
  rw [h]

/-- One unfolding step of `comprimirTodos`. -/
theorem comprimir_cons (uf : UnionFind V) (n : V) (rest : List V) :
    comprimirTodos uf (n :: rest) = comprimirTodos (uf.find n).1 rest := rfl

/-- The compression pass of `print_componentes` keeps the invariant, the
keys, the ranks and the whole root assignment. -/
theorem comprimir_spec {uf : UnionFind V} (inv : Inv uf) (l : List V) :
    Inv (comprimirTodos uf l) ∧
    (comprimirTodos uf l).elems = uf.elems ∧
    (comprimirTodos uf l).rank = uf.rank ∧
    (∀ z, (comprimirTodos uf l).root z = uf.root z) := by
  induction l generalizing uf with
  | nil => exact ⟨inv, rfl, rfl, fun z => rfl⟩
  | cons n rest ih =>
    rw [comprimir_cons]
    obtain ⟨i1, i2, i3, i4⟩ := ih (find_inv inv n)
    refine ⟨i1, ?_, ?_, ?_⟩
    · rw [i2, find_elems inv n]
    · rw [i3, find_rank inv n]
    · intro z
      rw [i4 z, find_root inv n z]

/-- Collapsing one value of a function onto another removes exactly that
value from the image. -/
theorem image_colapso {S : Finset V} {f f' : V → V} {rdead rkeep : V}
    (hdead : rdead ∈ S.image f) (hkeep : rkeep ∈ S.image f)
    (hne : rdead ≠ rkeep)
    (hf : ∀ z, f' z = if f z = rdead then rkeep else f z) :
    S.image f' = (S.image f).erase rdead := by
  ext b
  simp only [Finset.mem_image, Finset.mem_erase]
  constructor
  · rintro ⟨z, hz, rfl⟩
    rw [hf z]
    by_cases h : f z = rdead
    · rw [if_pos h]
      obtain ⟨w, hw, hwf⟩ := Finset.mem_image.mp hkeep
      exact ⟨Ne.symm hne, w, hw, hwf⟩
    · rw [if_neg h]
      exact ⟨h, z, hz, rfl⟩
  · rintro ⟨hb, z, hz, rfl⟩
    refine ⟨z, hz, ?_⟩
    rw [hf z, if_neg hb]

/-- A merging `union` decreases the number of components by exactly one. -/
theorem union_comps {uf : UnionFind V} (inv : Inv uf) {x y : V}
    (hx : x ∈ uf.elems) (hy : y ∈ uf.elems)
    (hne : uf.root x ≠ uf.root y) :
    comps (uf.union x y).1 + 1 = comps uf := by
  obtain ⟨⟨c, hc, hroots⟩, _⟩ := (union_spec inv hx hy).2.2.2.2 hne
  have helems := union_elems inv hx hy
  have hrxm : uf.root x ∈ uf.elems.toFinset.image uf.root :=
    Finset.mem_image.mpr ⟨x, List.mem_toFinset.mpr hx, rfl⟩
  have hrym : uf.root y ∈ uf.elems.toFinset.image uf.root :=
    Finset.mem_image.mpr ⟨y, List.mem_toFinset.mpr hy, rfl⟩
  unfold comps
  rw [helems]
  rcases hc with rfl | rfl
  · have hf : ∀ z, (uf.union x y).1.root z =
        if uf.root z = uf.root y then uf.root x else uf.root z := by
      intro z
      rw [hroots z]
      by_cases h1 : uf.root z = uf.root x
      · rw [if_pos (Or.inl h1), if_neg (fun hh => hne (h1.symm.trans hh))]
        exact h1.symm
      · by_cases h2 : uf.root z = uf.root y
        · rw [if_pos (Or.inr h2), if_pos h2]
        · rw [if_neg (not_or.mpr ⟨h1, h2⟩), if_neg h2]
    rw [image_colapso hrym hrxm (Ne.symm hne) hf]
    exact Finset.card_erase_add_one hrym
  · have hf : ∀ z, (uf.union x y).1.root z =
        if uf.root z = uf.root x then uf.root y else uf.root z := by
      intro z
      rw [hroots z]
      by_cases h1 : uf.root z = uf.root x
      · rw [if_pos (Or.inl h1), if_pos h1]
      · by_cases h2 : uf.root z = uf.root y
        · rw [if_pos (Or.inr h2), if_neg h1]
          exact h2.symm
        · rw [if_neg (not_or.mpr ⟨h1, h2⟩), if_neg h1]
    rw [image_colapso hrxm hrym hne hf]
    exact Finset.card_erase_add_one hrxm

/-- Invariant of the edge loop of `kruskal`: the loop preserves the key
list and the structural invariant; the number of components plus the
number of accepted edges stays equal to the number of distinct vertices;
and two vertices share a root exactly when they are joined by a path of
already-processed edges. -/
theorem bucle_kruskal {nodos : List V} :
    ∀ (resto hecho : List (V × V × Int)) (uf : UnionFind V)
      (arbol : List (V × V × Int)) (coste : Int),
      uf.elems = nodos → Inv uf →
      comps uf + arbol.length = nodos.toFinset.card →
      (∀ a b, uf.root a = uf.root b ↔ ReachG hecho a b) →
      (∀ e ∈ resto, e.1 ∈ nodos ∧ e.2.1 ∈ nodos) →
      (resto.foldl (paso nodos) (uf, arbol, coste)).1.elems = nodos ∧
      Inv (resto.foldl (paso nodos) (uf, arbol, coste)).1 ∧
      comps (resto.foldl (paso nodos) (uf, arbol, coste)).1 +
        (resto.foldl (paso nodos) (uf, arbol, coste)).2.1.length =
        nodos.toFinset.card ∧
      (∀ a b, (resto.foldl (paso nodos) (uf, arbol, coste)).1.root a =
          (resto.foldl (paso nodos) (uf, arbol, coste)).1.root b ↔
        ReachG (hecho ++ resto) a b) := by
  intro resto
  induction resto with
  | nil =>
    intro hecho uf arbol coste h1 h2 h3 h4 h5
    refine ⟨h1, h2, h3, fun a b => ?_⟩
    rw [List.append_nil]
    exact h4 a b
  | cons e rest ih =>
    intro hecho uf arbol coste h1 h2 h3 h4 h5
    obtain ⟨hu, hv⟩ := h5 e (List.mem_cons_self e rest)
    have inv1 : Inv (uf.find e.1).1 := find_inv h2 e.1
    have inv2 : Inv ((uf.find e.1).1.find e.2.1).1 := find_inv inv1 e.2.1
    have elems2 : ((uf.find e.1).1.find e.2.1).1.elems = nodos := by
      rw [find_elems inv1, find_elems h2, h1]
    have root2 : ∀ z, ((uf.find e.1).1.find e.2.1).1.root z = uf.root z := by
      intro z
      rw [find_root inv1, find_root h2]
    have hru : (uf.find e.1).2 = uf.root e.1 := find_val h2 e.1
    have hrv : ((uf.find e.1).1.find e.2.1).2 = uf.root e.2.1 := by
      rw [find_val inv1, find_root h2]
    have hu2 : e.1 ∈ ((uf.find e.1).1.find e.2.1).1.elems := by
      rw [elems2]
      exact hu
    have hv2 : e.2.1 ∈ ((uf.find e.1).1.find e.2.1).1.elems := by
      rw [elems2]
      exact hv
    have h5' : ∀ e' ∈ rest, e'.1 ∈ nodos ∧ e'.2.1 ∈ nodos :=
      fun e' he' => h5 e' (List.mem_cons_of_mem _ he')
    simp only [List.foldl_cons]
    by_cases hc : (uf.find e.1).2 ≠ ((uf.find e.1).1.find e.2.1).2
    · have hstep : paso nodos (uf, arbol, coste) e =
          (comprimirTodos (((uf.find e.1).1.find e.2.1).1.union e.1 e.2.1).1 nodos,
           arbol ++ [e], coste + e.2.2) := by
        simp only [paso, if_pos hc]
      rw [hstep]
      have hne : uf.root e.1 ≠ uf.root e.2.1 := by
        rw [← hru, ← hrv]
        exact hc
      have hne2 : ((uf.find e.1).1.find e.2.1).1.root e.1 ≠
          ((uf.find e.1).1.find e.2.1).1.root e.2.1 := by
        rw [root2, root2]
        exact hne
      obtain ⟨⟨c, hc', hcol⟩, _⟩ := (union_spec inv2 hu2 hv2).2.2.2.2 hne2
      have invU : Inv (((uf.find e.1).1.find e.2.1).1.union e.1 e.2.1).1 :=
        union_inv inv2 hu2 hv2
      have elemsU : (((uf.find e.1).1.find e.2.1).1.union e.1 e.2.1).1.elems = nodos := by
        rw [union_elems inv2 hu2 hv2, elems2]
      have comps2 : comps ((uf.find e.1).1.find e.2.1).1 = comps uf :=
        comps_congr (by rw [elems2, h1]) root2
      have compsU : comps (((uf.find e.1).1.find e.2.1).1.union e.1 e.2.1).1 + 1 =
          comps uf := by
        rw [union_comps inv2 hu2 hv2 hne2, comps2]
      obtain ⟨invF, elemsF, _, rootF⟩ := comprimir_spec invU nodos
      have elemsF' :
          (comprimirTodos (((uf.find e.1).1.find e.2.1).1.union e.1 e.2.1).1
            nodos).elems = nodos := by
        rw [elemsF, elemsU]
      have hc'' : c = uf.root e.1 ∨ c = uf.root e.2.1 := by
        rcases hc' with h | h
        · exact Or.inl (h.trans (root2 e.1))
        · exact Or.inr (h.trans (root2 e.2.1))
      have hcolF : ∀ z,
          (comprimirTodos (((uf.find e.1).1.find e.2.1).1.union e.1 e.2.1).1
            nodos).root z =
          if uf.root z = uf.root e.1 ∨ uf.root z = uf.root e.2.1 then c
          else uf.root z := by
        intro z
        rw [rootF z, hcol z, root2 z, root2 e.1, root2 e.2.1]
      have compsF :
          comps (comprimirTodos (((uf.find e.1).1.find e.2.1).1.union e.1 e.2.1).1
            nodos) =
          comps (((uf.find e.1).1.find e.2.1).1.union e.1 e.2.1).1 :=
        comps_congr elemsF rootF
      have harith :
          comps (comprimirTodos (((uf.find e.1).1.find e.2.1).1.union e.1 e.2.1).1
            nodos) + (arbol ++ [e]).length = nodos.toFinset.card := by
        simp only [List.length_append, List.length_singleton]
        omega
      have hI4 : ∀ a b,
          (comprimirTodos (((uf.find e.1).1.find e.2.1).1.union e.1 e.2.1).1
            nodos).root a =
          (comprimirTodos (((uf.find e.1).1.find e.2.1).1.union e.1 e.2.1).1
            nodos).root b ↔ ReachG (hecho ++ [e]) a b := by
        intro a b
        constructor
        · intro hab
          rw [hcolF a, hcolF b] at hab
          by_cases ha1 : uf.root a = uf.root e.1 ∨ uf.root a = uf.root e.2.1
          · by_cases hb1 : uf.root b = uf.root e.1 ∨ uf.root b = uf.root e.2.1
            · have bridge : ∀ {z : V},
                  (uf.root z = uf.root e.1 ∨ uf.root z = uf.root e.2.1) →
                  ReachG (hecho ++ [e]) z e.1 := by
                intro z hz
                rcases hz with hz | hz
                · exact reachg_mono e ((h4 z e.1).mp hz)
                · refine Relation.ReflTransGen.tail
                    (reachg_mono e ((h4 z e.2.1).mp hz)) ?_
                  exact adyacente_append.mpr (Or.inr (Or.inr ⟨rfl, rfl⟩))
              exact Relation.ReflTransGen.trans (bridge ha1) (reachg_symm (bridge hb1))
            · rw [if_pos ha1, if_neg hb1] at hab
              exfalso
              rcases hc'' with h | h
              · exact hb1 (Or.inl (hab.symm.trans h))
              · exact hb1 (Or.inr (hab.symm.trans h))
          · by_cases hb1 : uf.root b = uf.root e.1 ∨ uf.root b = uf.root e.2.1
            · rw [if_neg ha1, if_pos hb1] at hab
              exfalso
              rcases hc'' with h | h
              · exact ha1 (Or.inl (hab.trans h))
              · exact ha1 (Or.inr (hab.trans h))
            · rw [if_neg ha1, if_neg hb1] at hab
              exact reachg_mono e ((h4 a b).mp hab)
        · intro hab
          refine reach_mismo_root ?_ hab
          intro s t hadj
          rcases adyacente_append.mp hadj with h | ⟨hs, ht⟩ | ⟨hs, ht⟩
          · have hst := (h4 s t).mpr (Relation.ReflTransGen.single h)
            rw [hcolF s, hcolF t, hst]
          · subst hs
            subst ht
            rw [hcolF, hcolF, if_pos (Or.inl rfl), if_pos (Or.inr rfl)]
          · subst hs
            subst ht
            rw [hcolF, hcolF, if_pos (Or.inr rfl), if_pos (Or.inl rfl)]
      obtain ⟨g1, g2, g3, g4⟩ := ih (hecho ++ [e])
        (comprimirTodos (((uf.find e.1).1.find e.2.1).1.union e.1 e.2.1).1 nodos)
        (arbol ++ [e]) (coste + e.2.2) elemsF' invF harith hI4 h5'
      refine ⟨g1, g2, g3, fun a b => ?_⟩
      have g4' := g4 a b
      rw [List.append_assoc] at g4'
      exact g4'
    · have hceq : (uf.find e.1).2 = ((uf.find e.1).1.find e.2.1).2 := not_not.mp hc
      have hstep : paso nodos (uf, arbol, coste) e =
          (comprimirTodos ((uf.find e.1).1.find e.2.1).1 nodos, arbol, coste) := by
        simp only [paso, if_neg hc]
      rw [hstep]
      have heq : uf.root e.1 = uf.root e.2.1 := by
        rw [← hru, ← hrv, hceq]
      obtain ⟨invF, elemsF, _, rootF⟩ := comprimir_spec inv2 nodos
      have elemsF' :
          (comprimirTodos ((uf.find e.1).1.find e.2.1).1 nodos).elems = nodos := by
        rw [elemsF, elems2]
      have rootF' : ∀ z,
          (comprimirTodos ((uf.find e.1).1.find e.2.1).1 nodos).root z = uf.root z := by
        intro z
        rw [rootF z, root2 z]
      have compsF : comps (comprimirTodos ((uf.find e.1).1.find e.2.1).1 nodos) =
          comps uf :=
        comps_congr (by rw [elemsF, elems2, h1]) rootF'
      have harith : comps (comprimirTodos ((uf.find e.1).1.find e.2.1).1 nodos) +
          arbol.length = nodos.toFinset.card := by
        rw [compsF]
        exact h3
      have hI4 : ∀ a b,
          (comprimirTodos ((uf.find e.1).1.find e.2.1).1 nodos).root a =
          (comprimirTodos ((uf.find e.1).1.find e.2.1).1 nodos).root b ↔
          ReachG (hecho ++ [e]) a b := by
        intro a b
        rw [rootF' a, rootF' b]
        constructor
        · intro hab
          exact reachg_mono e ((h4 a b).mp hab)
        · intro hab
          have hadjs : ∀ s t, adyacente (hecho ++ [e]) s t →
              uf.root s = uf.root t := by
            intro s t hadj
            rcases adyacente_append.mp hadj with h | ⟨hs, ht⟩ | ⟨hs, ht⟩
            · exact (h4 s t).mpr (Relation.ReflTransGen.single h)
            · subst hs
              subst ht
              exact heq
            · subst hs
              subst ht
              exact heq.symm
          exact reach_mismo_root hadjs hab
      obtain ⟨g1, g2, g3, g4⟩ := ih (hecho ++ [e])
        (comprimirTodos ((uf.find e.1).1.find e.2.1).1 nodos)
        arbol coste elemsF' invF harith hI4 h5'
      refine ⟨g1, g2, g3, fun a b => ?_⟩
      have g4' := g4 a b
      rw [List.append_assoc] at g4'
      exact g4'

/-- Counting argument: if the final state of the loop has one root class
per component of the input graph, then the number of accepted edges is
at most (number of distinct vertices) − 1, with equality exactly for
connected inputs. -/
theorem cuenta_conexo {aristas : List (V × V × Int)} {ufF : UnionFind V}
    {arbolF : List (V × V × Int)}
    (gElems : ufF.elems = nodosDe aristas)
    (gCount : comps ufF + arbolF.length = (nodosDe aristas).toFinset.card)
    (gIff : ∀ a b, ufF.root a = ufF.root b ↔ ReachG aristas a b) :
    arbolF.length ≤ (nodosDe aristas).length - 1 ∧
    (arbolF.length = (nodosDe aristas).length - 1 ↔ Conexo aristas) := by
  have hcard : (nodosDe aristas).toFinset.card = (nodosDe aristas).length :=
    List.toFinset_card_of_nodup (nodosDe_nodup aristas)
  by_cases hvac : (nodosDe aristas).length = 0
  · have hnil : nodosDe aristas = [] := List.length_eq_zero.mp hvac
    have hconexo : Conexo aristas := by
      intro a ha
      rw [hnil] at ha
      simp at ha
    have hlen : arbolF.length = 0 := by omega
    exact ⟨by omega, ⟨fun _ => hconexo, fun _ => by omega⟩⟩
  · have hne : nodosDe aristas ≠ [] := by
      intro h
      rw [h] at hvac
      exact hvac rfl
    obtain ⟨a0, ha0⟩ := List.exists_mem_of_ne_nil _ hne
    have hFpos : 1 ≤ comps ufF := by
      have himg : (ufF.elems.toFinset.image ufF.root).Nonempty := by
        rw [gElems]
        exact Finset.Nonempty.image ⟨a0, List.mem_toFinset.mpr ha0⟩ _
      exact Finset.card_pos.mpr himg
    have hcon : comps ufF = 1 ↔ Conexo aristas := by
      constructor
      · intro h1 a ha b hb
        have hmem : ∀ z, z ∈ nodosDe aristas →
            ufF.root z ∈ ufF.elems.toFinset.image ufF.root := by
          intro z hz
          rw [gElems]
          exact Finset.mem_image.mpr ⟨z, List.mem_toFinset.mpr hz, rfl⟩
        have hle : (ufF.elems.toFinset.image ufF.root).card ≤ 1 := le_of_eq h1
        have heq := Finset.card_le_one.mp hle _ (hmem a ha) _ (hmem b hb)
        exact (gIff a b).mp heq
      · intro hc
        have himg : ufF.elems.toFinset.image ufF.root = {ufF.root a0} := by
          ext b
          simp only [Finset.mem_image, Finset.mem_singleton, gElems,
            List.mem_toFinset]
          constructor
          · rintro ⟨z, hz, rfl⟩
            exact (gIff z a0).mpr (hc z hz a0 ha0)
          · intro hb
            exact ⟨a0, ha0, hb.symm⟩
        unfold comps
        rw [himg, Finset.card_singleton]
    refine ⟨by omega, ?_, ?_⟩
    · intro hlen
      exact hcon.mp (by omega)
    · intro hc
      have h1 := hcon.mpr hc
      omega

/-- Claim C6: for every input edge list and mode, the number of accepted
edges never exceeds (number of distinct vertices) − 1 (the subtraction
is truncated at zero for the vertexless empty input), and equals it
exactly if and only if the input graph is connected. -/
theorem C6_teorema (aristas : List (V × V × Int)) (tipo : String) :
    (kruskal aristas tipo).1.length ≤ (nodosDe aristas).length - 1 ∧
    ((kruskal aristas tipo).1.length = (nodosDe aristas).length - 1 ↔
      Conexo aristas) := by
  have inv0 : Inv (UnionFind.init (nodosDe aristas)) :=
    ⟨fun u hu => absurd rfl hu, fun u hu => absurd rfl hu⟩
  obtain ⟨invC, elemsC, _, rootC⟩ := comprimir_spec inv0 (nodosDe aristas)
  have elemsC2 : (comprimirTodos (UnionFind.init (nodosDe aristas))
      (nodosDe aristas)).elems = nodosDe aristas := elemsC
  have rootC' : ∀ z, (comprimirTodos (UnionFind.init (nodosDe aristas))
      (nodosDe aristas)).root z = z := by
    intro z
    rw [rootC z, root_fix rfl]
  have compsC : comps (comprimirTodos (UnionFind.init (nodosDe aristas))
      (nodosDe aristas)) = (nodosDe aristas).toFinset.card := by
    rw [comps_congr elemsC rootC, comps_init]
  have hbase : ∀ a b, (comprimirTodos (UnionFind.init (nodosDe aristas))
      (nodosDe aristas)).root a = (comprimirTodos (UnionFind.init (nodosDe aristas))
      (nodosDe aristas)).root b ↔ ReachG ([] : List (V × V × Int)) a b := by
    intro a b
    rw [rootC' a, rootC' b]
    constructor
    · intro h
      subst h
      exact Relation.ReflTransGen.refl
    · exact reachg_nil
  have h5 : ∀ e ∈ ordenar aristas tipo,
      e.1 ∈ nodosDe aristas ∧ e.2.1 ∈ nodosDe aristas := by
    intro e he
    exact mem_nodosDe ((ordenar_perm aristas tipo).mem_iff.mp he)
  obtain ⟨gElems, gInv, gCount, gIff⟩ := bucle_kruskal (ordenar aristas tipo) []
    (comprimirTodos (UnionFind.init (nodosDe aristas)) (nodosDe aristas)) [] 0
    elemsC2 invC (by simpa using compsC) hbase h5
  exact cuenta_conexo gElems gCount
    (fun a b => (gIff a b).trans (reachg_perm (ordenar_perm aristas tipo)))

/-- Witness for C6 at a concrete one-edge input. -/
theorem C6_testigo :
    (kruskal [("A", "B", (1 : Int))] "min").1.length ≤
      (nodosDe [("A", "B", (1 : Int))]).length - 1 :=
  (C6_teorema [("A", "B", (1 : Int))] "min").1

/-- Claim C7: in every reachable state, for every vertex of the
initialising set, two consecutive `find(v)` calls return the same root
and the second call changes neither the parent nor the rank mapping
(idempotence after path compression). -/
theorem C7_teorema {uf : UnionFind V} (h : Alcanzable uf) (v : V)
    (hv : v ∈ uf.elems) :
    ((uf.find v).1.find v).2 = (uf.find v).2 ∧
    (∀ y, ((uf.find v).1.find v).1.parent y = (uf.find v).1.parent y) ∧
    (∀ y, ((uf.find v).1.find v).1.rank y = (uf.find v).1.rank y) := by
  obtain ⟨h1, h2, h3, _⟩ := find_otra_vez (alcanzable_inv h) v
  exact ⟨h1, h2, h3⟩

/-- Witness for C7: the theorem applied to the freshly initialised state
over A, B at the member A. -/
theorem C7_testigo :
    (((UnionFind.init (["A", "B"] : List String)).find "A").1.find "A").2 =
      ((UnionFind.init (["A", "B"] : List String)).find "A").2 :=
  (C7_teorema (Alcanzable.inicial ["A", "B"]) "A" (by decide)).1

/-- Claim C8 (counterexample): in the reachable state `ufEjemplo`
(obtained by union(C,D), union(A,B), union(B,D) from the elements
A,B,C,D) the self-union `union(D,D)` returns false but does change the
parent mapping: the embedded `find(D)` path-compresses D from parent C
to parent A, so the claim that the parent mapping is completely
unchanged is false. -/
theorem C8_contraejemplo :
    Alcanzable ufEjemplo ∧
    (ufEjemplo.union "D" "D").2 = false ∧
    ufEjemplo.parent "D" = "C" ∧
    (ufEjemplo.union "D" "D").1.parent "D" = "A" := by
  refine ⟨?_, by decide, by decide, by decide⟩
  apply Alcanzable.unir "B" "D" (by decide) (by decide)
  apply Alcanzable.unir "A" "B" (by decide) (by decide)
  apply Alcanzable.unir "C" "D" (by decide) (by decide)
  exact Alcanzable.inicial ["A", "B", "C", "D"]

/-- Claim C8 (amended): in every reachable state, for every member `a`,
the self-union `union(a,a)` returns false, never changes the rank
mapping, and changes the parent mapping only by the path compression
performed by its embedded `find(a)`: the resulting parent mapping is
exactly the one produced by `find(a)`. -/
theorem C8_teorema {uf : UnionFind V} (h : Alcanzable uf) (a : V)
    (ha : a ∈ uf.elems) :
    (uf.union a a).2 = false ∧
    (∀ z, (uf.union a a).1.rank z = uf.rank z) ∧
    (∀ z, (uf.union a a).1.parent z = (uf.find a).1.parent z) := by
  have inv0 : Inv uf := alcanzable_inv h
  obtain ⟨h1, h2, h3, _⟩ := find_otra_vez inv0 a
  simp only [UnionFind.union, if_pos h1.symm]
  exact ⟨trivial, fun z => (h3 z).trans (congrFun (find_rank inv0 a) z), h2⟩

/-- Witness for C8 (amended): the self-union on a singleton initial
state returns false. -/
theorem C8_testigo :
    ((UnionFind.init (["A"] : List String)).union "A" "A").2 = false :=
  (C8_teorema (Alcanzable.inicial ["A"]) "A" (by decide)).1

/-- Claim C9: in every reachable state, every vertex follows its parent
chain to exactly one root (the chain reaches `root v`, which is a root,
and any root reached by the chain equals it); chains have no cycles; and
rank changes only through `union`, which increases exactly the rank of
the surviving root by one and only when it merges two distinct roots of
equal rank (`find` never changes rank). -/
theorem C9_invariante {uf : UnionFind V} (h : Alcanzable uf) :
    (∀ v, Cadena uf v (uf.root v) ∧ uf.IsRoot (uf.root v) ∧
      (∀ r, Cadena uf v r → uf.IsRoot r → r = uf.root v)) ∧
    (∀ v, uf.parent v ≠ v → ¬ Cadena uf (uf.parent v) v) ∧
    (∀ x, (uf.find x).1.rank = uf.rank) ∧
    (∀ x y, x ∈ uf.elems → y ∈ uf.elems → ∀ z,
      (uf.union x y).1.rank z = uf.rank z ∨
      ((uf.union x y).1.rank z = uf.rank z + 1 ∧ z = uf.root x ∧
       uf.root x ≠ uf.root y ∧
       uf.rank (uf.root x) = uf.rank (uf.root y))) := by
  have inv0 : Inv uf := alcanzable_inv h
  refine ⟨fun v => ⟨cadena_root inv0 v, raiz_raiz inv0 v,
      fun r hc hr => cadena_unica inv0 hc hr⟩,
    fun v hv => cadena_aciclica inv0 hv,
    fun x => find_rank inv0 x, ?_⟩
  intro x y hx hy z
  by_cases hroots : uf.root x = uf.root y
  · exact Or.inl (((union_spec inv0 hx hy).2.2.2.1 hroots).2 z)
  · rcases ((union_spec inv0 hx hy).2.2.2.2 hroots).2 z with h1 | ⟨h1, h2, h3⟩
    · exact Or.inl h1
    · exact Or.inr ⟨h1, h2, hroots, h3⟩

/-- Witness for C9: the invariant applied to a freshly initialised
singleton state; its only vertex maps to a root. -/
theorem C9_testigo :
    (UnionFind.init (["A"] : List String)).IsRoot
      ((UnionFind.init (["A"] : List String)).root "A") :=
  ((C9_invariante (Alcanzable.inicial ["A"])).1 "A").2.1

/-- Claim C1 (counterexample): for the example graph in MAX mode the
algorithm does not accept 5 edges of total cost 35; the actual total
cost is 32 (the spec's edge set D-E, B-D, B-C, A-B, C-E contains the
cycle B-C-E-D-B and misses vertex F). -/
theorem C1_contraejemplo :
    ¬ ((kruskal grafo_ejemplo "max").1.length = 5 ∧
       (kruskal grafo_ejemplo "max").2 = 35) := by
  decide

/-- Claim C1 (amended): for the example graph in MAX mode the algorithm
accepts exactly 5 edges — D-E=11, B-D=10, B-C=5, A-B=4 and D-F=2 — with
total cost 32. -/
theorem C1_teorema :
    kruskal grafo_ejemplo "max" =
      ([("D", "E", 11), ("B", "D", 10), ("B", "C", 5), ("A", "B", 4), ("D", "F", 2)], 32) ∧
    (kruskal grafo_ejemplo "max").1.length = 5 ∧
    (kruskal grafo_ejemplo "max").2 = 32 := by
  decide

/-- Claim C2 (counterexample): for the empty edge list `kruskal` does not
fail; it normally returns the empty tree with total cost 0 (the program
defines no `EmptyGraphError` and raises nothing). -/
theorem C2_contraejemplo :
    kruskal ([] : List (String × String × Int)) "min" = ([], 0) ∧
    kruskal ([] : List (String × String × Int)) "max" = ([], 0) := by
  decide

/-- Claim C2 (amended): for the empty edge list and every mode string,
`kruskal` returns the empty accepted-edge list with total cost 0 rather
than raising an error. -/
theorem C2_teorema (tipo : String) :
    kruskal ([] : List (V × V × Int)) tipo = ([], 0) := by
  by_cases h : tipo = "min" <;>
    simp [kruskal, ordenar, h, kruskalSobre, nodosDe, comprimirTodos]

/-- Witness for C2: the amended claim instantiated at String vertices in
MAX mode. -/
theorem C2_testigo :
    kruskal ([] : List (String × String × Int)) "max" = ([], 0) :=
  C2_teorema "max"

/-- Claim C4: for the example graph in MIN mode the algorithm accepts
exactly 5 edges with total cost 12. -/
theorem C4_teorema :
    (kruskal grafo_ejemplo "min").1.length = 5 ∧
    (kruskal grafo_ejemplo "min").2 = 12 := by
  decide

/-- Claim C3 (counterexample): the value returned by `kruskal` carries no
connectivity flag and no forest/tree distinction: a connected input (one
vertex with a self-loop) and a disconnected input (two such components)
produce exactly the same return value, so the caller cannot read
connectivity off the result. -/
theorem C3_contraejemplo :
    Conexo [("X", "X", (5 : Int))] ∧
    ¬ Conexo [("X", "X", (5 : Int)), ("Y", "Y", 5)] ∧
    kruskal [("X", "X", (5 : Int))] "min" =
      kruskal [("X", "X", (5 : Int)), ("Y", "Y", 5)] "min" :=
  ⟨conexo_lazo, no_conexo_lazos, by decide⟩

/-- Claim C3 (amended): for the disconnected input `(A,B,1), (C,D,2)` the
algorithm accepts exactly 2 edges with total cost 3, and the input is
indeed disconnected; but the return value is the bare pair
`(arbol, coste)` with no connectivity indication. -/
theorem C3_teorema :
    kruskal [("A", "B", (1 : Int)), ("C", "D", 2)] "min" =
      ([("A", "B", 1), ("C", "D", 2)], 3) ∧
    (kruskal [("A", "B", (1 : Int)), ("C", "D", 2)] "min").1.length = 2 ∧
    ¬ Conexo [("A", "B", (1 : Int)), ("C", "D", 2)] :=
  ⟨by decide, by decide, no_conexo_dos⟩

/-- Claim C5: the loop of `kruskal` processes exactly the input edges
(the sorted list is a permutation of the input), in non-decreasing
weight order when the mode is "min" and in non-increasing weight order
otherwise (the code treats every mode other than "min" as MAX). -/
theorem C5_teorema (aristas : List (V × V × Int)) (tipo : String) :
    kruskal aristas tipo = kruskalSobre (nodosDe aristas) (ordenar aristas tipo) ∧
    (ordenar aristas tipo).Perm aristas ∧
    (tipo = "min" →
      (ordenar aristas tipo).Pairwise (fun a b => a.2.2 ≤ b.2.2)) ∧
    (tipo ≠ "min" →
      (ordenar aristas tipo).Pairwise (fun a b => b.2.2 ≤ a.2.2)) := by
  refine ⟨rfl, ordenar_perm aristas tipo, ?_, ?_⟩
  · intro h
    simp only [ordenar, if_pos h]
    exact List.sorted_insertionSort _ _
  · intro h
    simp only [ordenar, if_neg h]
    exact List.sorted_insertionSort _ _

/-- Witness for C5 at a concrete edge list, in both modes. -/
theorem C5_testigo :
    (ordenar [("A", "B", (2 : Int)), ("C", "D", 1)] "min").Pairwise
      (fun a b => a.2.2 ≤ b.2.2) ∧
    (ordenar [("A", "B", (2 : Int)), ("C", "D", 1)] "max").Pairwise
      (fun a b => b.2.2 ≤ a.2.2) :=
  ⟨(C5_teorema [("A", "B", (2 : Int)), ("C", "D", 1)] "min").2.2.1 rfl,
   (C5_teorema [("A", "B", (2 : Int)), ("C", "D", 1)] "max").2.2.2 (by decide)⟩

/-- The store-passing loop body agrees with the pure loop body: the heap
changes only at the `arbol` address and the pure components coincide. -/
theorem bucle_almacen {nodos : List V} {aA aT : Nat} (hne : aA ≠ aT) :
    ∀ (lista : List (V × V × Int)) (τ : Almacen V) (uf : UnionFind V)
      (arbol : List (V × V × Int)) (coste : Int),
      τ.lee aT = arbol →
      (lista.foldl (cuerpoAlmacen nodos aT) (τ, uf, coste)).1.lee aA = τ.lee aA ∧
      (lista.foldl (cuerpoAlmacen nodos aT) (τ, uf, coste)).1.lee aT =
        (lista.foldl (paso nodos) (uf, arbol, coste)).2.1 ∧
      (lista.foldl (cuerpoAlmacen nodos aT) (τ, uf, coste)).2.1 =
        (lista.foldl (paso nodos) (uf, arbol, coste)).1 ∧
      (lista.foldl (cuerpoAlmacen nodos aT) (τ, uf, coste)).2.2 =
        (lista.foldl (paso nodos) (uf, arbol, coste)).2.2 := by
  intro lista
  induction lista with
  | nil =>
    intro τ uf arbol coste ht
    exact ⟨rfl, ht, rfl, rfl⟩
  | cons e rest ih =>
    intro τ uf arbol coste ht
    simp only [List.foldl_cons]
    by_cases hc : (uf.find e.1).2 ≠ ((uf.find e.1).1.find e.2.1).2
    · have hstep : cuerpoAlmacen nodos aT (τ, uf, coste) e =
          (τ.escribe aT (τ.lee aT ++ [e]),
           comprimirTodos (((uf.find e.1).1.find e.2.1).1.union e.1 e.2.1).1 nodos,
           coste + e.2.2) := by
        simp only [cuerpoAlmacen, if_pos hc]
      have hstep2 : paso nodos (uf, arbol, coste) e =
          (comprimirTodos (((uf.find e.1).1.find e.2.1).1.union e.1 e.2.1).1 nodos,
           arbol ++ [e], coste + e.2.2) := by
        simp only [paso, if_pos hc]
      rw [hstep, hstep2]
      have ht' : (τ.escribe aT (τ.lee aT ++ [e])).lee aT = arbol ++ [e] := by
        show (if aT = aT then τ.lee aT ++ [e] else τ.datos aT) = arbol ++ [e]
        rw [if_pos rfl, ht]
      obtain ⟨g1, g2, g3, g4⟩ :=
        ih (τ.escribe aT (τ.lee aT ++ [e])) _ (arbol ++ [e]) (coste + e.2.2) ht'
      refine ⟨?_, g2, g3, g4⟩
      rw [g1]
      show (if aA = aT then τ.lee aT ++ [e] else τ.datos aA) = τ.lee aA
      rw [if_neg hne]
      rfl
    · have hstep : cuerpoAlmacen nodos aT (τ, uf, coste) e =
          (τ, comprimirTodos ((uf.find e.1).1.find e.2.1).1 nodos, coste) := by
        simp only [cuerpoAlmacen, if_neg hc]
      have hstep2 : paso nodos (uf, arbol, coste) e =
          (comprimirTodos ((uf.find e.1).1.find e.2.1).1 nodos, arbol, coste) := by
        simp only [paso, if_neg hc]
      rw [hstep, hstep2]
      exact ih τ _ arbol coste ht

/-- Normal form of the store-passing `kruskal`: the loop runs over the
freshly allocated sorted list, and the `arbol` address is `σ.sig + 1`. -/
theorem kruskalAlmacen_eq (σ : Almacen V) (a : Nat) (tipo : String) :
    kruskalAlmacen σ a tipo =
      (((ordenar (σ.lee a) tipo).foldl
          (cuerpoAlmacen (nodosDe (σ.lee a)) (σ.sig + 1))
          (((σ.reserva (ordenar (σ.lee a) tipo)).1.reserva []).1,
           comprimirTodos (UnionFind.init (nodosDe (σ.lee a)))
             (nodosDe (σ.lee a)), 0)).1,
       σ.sig + 1,
       ((ordenar (σ.lee a) tipo).foldl
          (cuerpoAlmacen (nodosDe (σ.lee a)) (σ.sig + 1))
          (((σ.reserva (ordenar (σ.lee a) tipo)).1.reserva []).1,
           comprimirTodos (UnionFind.init (nodosDe (σ.lee a)))
             (nodosDe (σ.lee a)), 0)).2.2) := by
  have hlee0 : (((σ.reserva (ordenar (σ.lee a) tipo)).1.reserva []).1).lee
      (σ.reserva (ordenar (σ.lee a) tipo)).2 = ordenar (σ.lee a) tipo := by
    simp [Almacen.reserva, Almacen.lee]
  simp only [kruskalAlmacen]
  rw [hlee0]
  rfl

/-- Claim C10: `kruskal` does not mutate the caller's edge list: in the
store-passing translation, after the call the list object at the
caller's address still holds the same elements in the same order, while
the result components agree with the pure `kruskal`.  Sorting happens
on the fresh list allocated by `sorted`. -/
theorem C10_teorema (σ : Almacen V) (a : Nat) (tipo : String)
    (ha : a < σ.sig) :
    (kruskalAlmacen σ a tipo).1.lee a = σ.lee a ∧
    (kruskalAlmacen σ a tipo).1.lee (kruskalAlmacen σ a tipo).2.1 =
      (kruskal (σ.lee a) tipo).1 ∧
    (kruskalAlmacen σ a tipo).2.2 = (kruskal (σ.lee a) tipo).2 := by
  have hne1 : a ≠ σ.sig + 1 := by omega
  have hleeT : (((σ.reserva (ordenar (σ.lee a) tipo)).1.reserva []).1).lee
      ((σ.reserva (ordenar (σ.lee a) tipo)).1.reserva []).2 = [] := by
    simp [Almacen.reserva, Almacen.lee]
  obtain ⟨g1, g2, g3, g4⟩ :=
    @bucle_almacen V _ (nodosDe (σ.lee a)) a (σ.sig + 1) hne1
      (ordenar (σ.lee a) tipo)
      (((σ.reserva (ordenar (σ.lee a) tipo)).1.reserva []).1)
      (comprimirTodos (UnionFind.init (nodosDe (σ.lee a))) (nodosDe (σ.lee a)))
      [] 0 hleeT
  rw [kruskalAlmacen_eq]
  refine ⟨?_, ?_, ?_⟩
  · rw [g1]
    simp [Almacen.reserva, Almacen.lee, hne1]
    intro h
    omega
  · exact g2
  · exact g4

/-- Witness for C10: the caller's list at address 0 of the concrete
one-object heap is unchanged by the call. -/
theorem C10_testigo :
    (kruskalAlmacen almacenEjemplo 0 "min").1.lee 0 = almacenEjemplo.lee 0 :=
  (C10_teorema almacenEjemplo 0 "min" (by decide)).1

end ArbolMaxMin
